import Mathlib

/-!
Verification development for a capital-gains calculator
(`commsec_cgt_calculator.py`).  The Python source is shallowly embedded:
calendar dates become a `Date` structure ordered lexicographically (the
semantics of Python `datetime.date` comparison), monetary amounts become
rationals, share counts become integers, the mutable per-security
transaction list becomes explicit list-passing, and the narrative string
the source accumulates becomes a list of structured narrative events
carrying exactly the figures the source formats into the string.
-/

namespace CGT

/-- Calendar date, day precision, mirroring Python `datetime.date`. -/
structure Date where
  year : Int
  month : Int
  day : Int
deriving DecidableEq

/-- Strict comparison of dates: lexicographic on (year, month, day),
which is how Python `datetime.date` objects compare. -/
def Date.lt (a b : Date) : Prop :=
  a.year < b.year ∨ (a.year = b.year ∧
    (a.month < b.month ∨ (a.month = b.month ∧ a.day < b.day)))

/-- Non-strict comparison of dates, lexicographic on (year, month, day). -/
def Date.le (a b : Date) : Prop :=
  a.year < b.year ∨ (a.year = b.year ∧
    (a.month < b.month ∨ (a.month = b.month ∧ a.day ≤ b.day)))

instance (a b : Date) : Decidable (Date.lt a b) := by
  unfold Date.lt; infer_instance

instance (a b : Date) : Decidable (Date.le a b) := by
  unfold Date.le; infer_instance

theorem Date.le_refl (a : Date) : Date.le a a := by
  cases a; simp [Date.le]

theorem Date.le_trans {a b c : Date} (h1 : Date.le a b) (h2 : Date.le b c) :
    Date.le a c := by
  cases a; cases b; cases c
  simp only [Date.le] at *
  omega

theorem Date.not_lt_iff_le {a b : Date} : ¬ Date.lt a b ↔ Date.le b a := by
  cases a; cases b
  simp only [Date.lt, Date.le]
  omega

theorem Date.lt_iff_le_not_le {a b : Date} :
    Date.lt a b ↔ Date.le a b ∧ ¬ Date.le b a := by
  cases a; cases b
  simp only [Date.lt, Date.le]
  omega

/-- Gregorian leap-year test, as in Python's calendar handling. -/
def isLeapYear (y : Int) : Bool :=
  y % 4 == 0 && (y % 100 != 0 || y % 400 == 0)

/-- Number of days in a Gregorian month. -/
def daysInMonth (y m : Int) : Int :=
  if m = 2 then (if isLeapYear y then 29 else 28)
  else if m = 4 ∨ m = 6 ∨ m = 9 ∨ m = 11 then 30
  else 31

/-- `d` shifted by `m` calendar months, the day clamped to the target
month's length — the semantics `dateutil` uses when it adds a month
delta to a date while computing a `relativedelta`. -/
def addMonths (d : Date) (m : Int) : Date :=
  let tot : Int := d.year * 12 + (d.month - 1) + m
  let y : Int := tot / 12
  let mo : Int := tot % 12 + 1
  ⟨y, mo, min d.day (daysInMonth y mo)⟩

/-- Years component of `dateutil.relativedelta.relativedelta(d1, d2)`:
the raw month difference is adjusted by one when the month-shifted
anchor overshoots `d1` (undershoots, for `d1` before `d2`), and the
years component is the month count divided by 12, truncated toward
zero.  The engine only ever calls this with `d2 ≤ d1` (the ledger is
sorted ascending by date), where a single adjustment step is exact. -/
def relativedeltaYears (d1 d2 : Date) : Int :=
  let months0 : Int := (d1.year - d2.year) * 12 + (d1.month - d2.month)
  let months : Int :=
    if Date.lt d1 d2 then
      (if Date.lt (addMonths d2 months0) d1 then months0 + 1 else months0)
    else
      (if Date.lt d1 (addMonths d2 months0) then months0 - 1 else months0)
  if months < 0 then -(-months / 12) else months / 12

/-- One ledger row: the fields the source keeps for a transaction
(`date`, `type`, `quantity`, `total_value`, `remaining_shares`).
`type` is `"buy"` or `"sell"` for well-formed rows.  Monetary amounts
are rationals; share counts are integers as in the source. -/
structure Tx where
  date : Date
  type : String
  quantity : Int
  total_value : Rat
  remaining_shares : Int
deriving DecidableEq

/-- Price per unit of a lot, `total_value / quantity` (source sort key
for the minimize-gain strategy without the twelve-month rule). -/
def pricePerUnit (t : Tx) : Rat := t.total_value / (t.quantity : Rat)

/-- `partial_purchase_price` of the source: the cost of `shares` units
of buy lot `b`, rounded down to the cent
(`math.floor(shares * 100 * b.total_value / b.quantity) / 100`). -/
def fractional_purchase_price (shares : Int) (b : Tx) : Rat :=
  (⌊((shares : Rat) * 100 * b.total_value) / (b.quantity : Rat)⌋ : Int) / 100

/-- `partial_sell_price` of the source: the proceeds of `shares` units
of sell `s`, rounded up to the cent
(`math.ceil(shares * 100 * s.total_value / s.quantity) / 100`). -/
def fractional_sell_price (shares : Int) (s : Tx) : Rat :=
  (⌈((shares : Rat) * 100 * s.total_value) / (s.quantity : Rat)⌉ : Int) / 100

/-- `capital_gain` of the source: rounded proceeds minus rounded cost,
the difference itself rounded up to the cent. -/
def capital_gain (shares : Int) (b s : Tx) : Rat :=
  (⌈(fractional_sell_price shares s - fractional_purchase_price shares b) * 100⌉ : Int) / 100

/-- Per-security gain accumulator: the source's
`{"twelve_months": 0.0, "under_twelve_months": 0.0}` dictionary. -/
structure GainsSplit where
  twelve_months : Rat
  under_twelve_months : Rat
deriving DecidableEq

/-- One chunk of the transaction narrative the source appends to
`transaction_records_str`: either the header line for an in-window
sell, or a matched-lot line.  The matched-lot event carries the
figures the source computes for the match (`partial_purchase_price`,
`partial_sell_price`, `capital_gain`, the twelve-month flag). -/
inductive NarrEvent where
  | sellHeader (shares : Int) (stock : String) (d : Date) (total_value : Rat)
  | matched (shares : Int) (buyDate : Date) (purchase_cost : Rat)
      (sale_proceeds : Rat) (gain : Rat) (twelve_months : Bool)
deriving DecidableEq

/-- Add a capital gain to the long-term or short-term bucket of the
accumulator, as the source does after each in-window match. -/
def recordGain (g : GainsSplit) (twelve : Bool) (cg : Rat) : GainsSplit :=
  if twelve then { g with twelve_months := g.twelve_months + cg }
  else { g with under_twelve_months := g.under_twelve_months + cg }

/-- Record one in-window match of `shares` units of buy `b` against
sell `s`: accumulate the capital gain into the right bucket and append
the matched-lot narrative event. -/
def recordMatch (g : GainsSplit) (n : List NarrEvent) (shares : Int)
    (b s : Tx) (twelve : Bool) : GainsSplit × List NarrEvent :=
  (recordGain g twelve (capital_gain shares b s),
   n ++ [NarrEvent.matched shares b.date (fractional_purchase_price shares b)
          (fractional_sell_price shares s) (capital_gain shares b s) twelve])

/-- The inner `while j < i and remaining_to_sell > 0` loop of
`calculate_capital_gains`, one sell `s` against the candidate prefix.
Entries that are not buys or have no remaining shares are skipped and
kept.  A consumed buy is removed (`transactions.pop(j)`); a partially
consumed buy keeps `share_diff` remaining shares.  Gains and narrative
are only recorded when `s.date >= start_date`.  Returns the surviving
candidates in order, the leftover `remaining_to_sell`, and the updated
accumulator and narrative. -/
def matchLoop (start : Date) (s : Tx) :
    List Tx → Int → GainsSplit → List NarrEvent →
    List Tx × Int × GainsSplit × List NarrEvent
  | [], rem, g, n => ([], rem, g, n)
  | b :: cs, rem, g, n =>
    if rem ≤ 0 then (b :: cs, rem, g, n)
    else if b.type ≠ "buy" ∨ b.remaining_shares ≤ 0 then
      let r := matchLoop start s cs rem g n
      (b :: r.1, r.2)
    else
      let share_diff := b.remaining_shares - rem
      let twelve := decide (1 ≤ relativedeltaYears s.date b.date)
      if share_diff < 0 then
        let p := if Date.le start s.date then
            recordMatch g n b.remaining_shares b s twelve else (g, n)
        matchLoop start s cs |share_diff| p.1 p.2
      else
        let p := if Date.le start s.date then
            recordMatch g n rem b s twelve else (g, n)
        ((if share_diff = 0 then cs
          else { b with remaining_shares := share_diff } :: cs), 0, p.1, p.2)

/-- The sort key of the source's minimize-gain reorder when the
twelve-month rule applies: per candidate `t` against the current sell
`s`, `((s.total_value/s.quantity) - (t.total_value/t.quantity)) / 2`
when the holding period is at least one year and the sell price per
unit exceeds the buy price per unit, else the undivided difference. -/
def minimizeKey (s t : Tx) : Rat :=
  if 1 ≤ relativedeltaYears s.date t.date ∧ pricePerUnit t < pricePerUnit s then
    (pricePerUnit s - pricePerUnit t) / 2
  else
    pricePerUnit s - pricePerUnit t

/-- The strategy-dependent reorder the source applies to the candidate
prefix `transactions[0:i]` before matching sell `s`: under FIFO no
reorder; under minimize-gain either descending by price per unit
(no twelve-month rule) or ascending by the effective-gain key
(twelve-month rule applied).  `List.insertionSort` is a stable sort,
matching Python's `sorted`. -/
def strategyCands (rule mini : Bool) (s : Tx) (front : List Tx) : List Tx :=
  if mini then
    (if rule then
      List.insertionSort (fun a b => minimizeKey s a ≤ minimizeKey s b) front
     else
      List.insertionSort (fun a b => pricePerUnit b ≤ pricePerUnit a) front)
  else front

/-- Failure of `calculate_capital_gains`.  `oversell` models the
source's "sold more shares than you own" dialog with the security code
and the residual quantity; `stuck` marks the state in which the source
would loop forever (a sell whose `remaining_shares` is not positive:
the inner loop makes no progress and the sell is never removed). -/
inductive CalcErr where
  | oversell (stock : String) (remaining : Int)
  | stuck (stock : String)
deriving DecidableEq

/-- The outer `while i < len(transactions)` loop of
`calculate_capital_gains` for one security: `front` is the prefix of
the list before the current scan position (the buy candidates), `rest`
the transactions not yet reached.  Non-sell entries move into the
prefix; for a sell the prefix is first reordered per strategy, the
header narrative is appended when in window, the match loop runs, and
a positive leftover aborts with the overselling failure.  Returns the
mutated transaction list, the gain accumulator, the narrative, and an
optional failure. -/
def processStock (start : Date) (rule mini : Bool) (stock : String) :
    List Tx → List Tx → GainsSplit → List NarrEvent →
    List Tx × GainsSplit × List NarrEvent × Option CalcErr
  | front, [], g, n => (front, g, n, none)
  | front, t :: rest, g, n =>
    if t.type ≠ "sell" then
      processStock start rule mini stock (front ++ [t]) rest g n
    else
      let rem := t.remaining_shares
      let cands := strategyCands rule mini t front
      let n1 := if Date.le start t.date then
          n ++ [NarrEvent.sellHeader rem stock t.date t.total_value] else n
      if rem ≤ 0 then
        (cands ++ t :: rest, g, n1, some (CalcErr.stuck stock))
      else
        let r := matchLoop start t cands rem g n1
        if 0 < r.2.1 then
          (r.1 ++ t :: rest, r.2.2.1, r.2.2.2, some (CalcErr.oversell stock r.2.1))
        else
          processStock start rule mini stock r.1 rest r.2.2.1 r.2.2.2

/-- `calculate_capital_gains` over the security dictionary (an
insertion-ordered association list).  The source mutates the ledger in
place and on overselling shows the error dialog and returns
`({}, "")`; the embedding returns the mutated ledger alongside either
the failure or the per-security accumulators and the narrative. -/
def calcGainsAux (start : Date) (rule mini : Bool) :
    List (String × List Tx) → List (String × List Tx) →
    List (String × GainsSplit) → List NarrEvent →
    List (String × List Tx) ×
      Except CalcErr (List (String × GainsSplit) × List NarrEvent)
  | [], done, gains, narr => (done, Except.ok (gains, narr))
  | (name, ts) :: rest, done, gains, narr =>
    let r := processStock start rule mini name [] ts ⟨0, 0⟩ narr
    match r.2.2.2 with
    | some e => (done ++ [(name, r.1)] ++ rest, Except.error e)
    | none =>
      calcGainsAux start rule mini rest (done ++ [(name, r.1)])
        (gains ++ [(name, r.2.1)]) r.2.2.1

/-- Entry point of the lot-matching engine (`calculate_capital_gains`
in the source): processes each security in dictionary order, each with
a fresh zero accumulator, threading the narrative through. -/
def calculate_capital_gains (data : List (String × List Tx)) (start : Date)
    (apply_twelve_month_rule minimize_capital_gains : Bool) :
    List (String × List Tx) ×
      Except CalcErr (List (String × GainsSplit) × List NarrEvent) :=
  calcGainsAux start apply_twelve_month_rule minimize_capital_gains data [] [] []

/-- `calculate_total_capital_gains`: halve the summed long-term total
when the twelve-month rule applies, add the summed short-term total;
the per-security combined figures are always the unreduced sums. -/
def calculate_total_capital_gains (gains : List (String × GainsSplit))
    (apply_twelve_month_rule : Bool) : List (String × Rat) × Rat :=
  let more0 : Rat := gains.foldl (fun acc p => acc + p.2.twelve_months) 0
  let more : Rat := if apply_twelve_month_rule then more0 / 2 else more0
  let less : Rat := gains.foldl (fun acc p => acc + p.2.under_twelve_months) 0
  (gains.map (fun p => (p.1, p.2.twelve_months + p.2.under_twelve_months)),
   more + less)

/-- `shares_you_still_own`: per security, the sum of `remaining_shares`
over the transactions still typed `"buy"`. -/
def shares_you_still_own (d : List (String × List Tx)) :
    List (String × Int) :=
  d.map (fun p =>
    (p.1, (p.2.filter (fun t => t.type = "buy")).foldl
      (fun acc t => acc + t.remaining_shares) 0))

/-- The backward scan both `calculate_latest_tax_year` and
`filter_for_latest_tax_year` perform: the last (most recent, once the
list is sorted ascending by date) transaction typed `"sell"`. -/
def lastSell : List Tx → Option Tx
  | [] => none
  | t :: ts =>
    match lastSell ts with
    | some u => some u
    | none => if t.type = "sell" then some t else none

/-- One step of the maximum computed by `calculate_latest_tax_year`:
fold the date of this security's most recent sell (when it has one)
into the running latest date, keeping the larger. -/
def latestSellFold (acc : Option Date) (p : String × List Tx) : Option Date :=
  match lastSell p.2 with
  | none => acc
  | some t =>
    match acc with
    | none => some t.date
    | some l => if Date.lt l t.date then some t.date else some l

/-- `calculate_latest_tax_year`: the maximum over securities of the
date of the most recent sell; `none` when no security has a sell.  The
window is the Australian tax year (1 July - 30 June) containing it. -/
def calculate_latest_tax_year (data : List (String × List Tx)) :
    Option (Date × Date) :=
  let latest : Option Date := data.foldl latestSellFold none
  match latest with
  | none => none
  | some l =>
    if 7 ≤ l.month then some (⟨l.year, 7, 1⟩, ⟨l.year + 1, 6, 30⟩)
    else some (⟨l.year - 1, 7, 1⟩, ⟨l.year, 6, 30⟩)

/-- `filter_for_latest_tax_year`: keep exactly the securities whose
most recent sell falls inside the window. -/
def filter_for_latest_tax_year (data : List (String × List Tx))
    (start end_ : Date) : List (String × List Tx) :=
  data.filter (fun p =>
    match lastSell p.2 with
    | some t => decide (Date.le start t.date ∧ Date.le t.date end_)
    | none => false)

/-- `sort_dict_ascending_by_date`: stable sort of each security's
transactions ascending by date. -/
def sort_dict_ascending_by_date (data : List (String × List Tx)) :
    List (String × List Tx) :=
  data.map (fun p =>
    (p.1, List.insertionSort (fun a b => Date.le a.date b.date) p.2))

/-- The data `print_results` renders into the summary text file and
the tabular CSV file. -/
structure Report where
  gains_per_stock : List (String × Rat)
  total_gains : Rat
  holdings : List (String × Int)
  narrative : List NarrEvent
  start_date : Date
  end_date : Date
  rule_applied : Bool
deriving DecidableEq

/-- The `calculate` pipeline from the point where the normalized
ledger exists: sort by date, resolve the tax year, filter, run the
engine, aggregate, snapshot holdings, and hand everything to
`print_results` (modelled as the returned `Report`; `none` models the
paths on which the source returns without writing files, or hangs).
On overselling the source's `calculate_capital_gains` returns
`({}, "")` after showing the error dialog and the caller carries on
with those empty results — faithfully mirrored here. -/
def calculate (data : List (String × List Tx))
    (twelve_month_rule minimize_flag : Bool) : Option Report :=
  if data.isEmpty then none
  else
    let data1 := sort_dict_ascending_by_date data
    match calculate_latest_tax_year data1 with
    | none => none
    | some (start, end_) =>
      let filtered := filter_for_latest_tax_year data1 start end_
      if filtered.isEmpty then none
      else
        let r := calculate_capital_gains filtered start twelve_month_rule minimize_flag
        match r.2 with
        | Except.error (CalcErr.stuck _) => none
        | Except.error (CalcErr.oversell _ _) =>
          let t := calculate_total_capital_gains [] twelve_month_rule
          some ⟨t.1, t.2, shares_you_still_own r.1, [], start, end_, twelve_month_rule⟩
        | Except.ok (gains, narr) =>
          let t := calculate_total_capital_gains gains twelve_month_rule
          some ⟨t.1, t.2, shares_you_still_own r.1, narr, start, end_, twelve_month_rule⟩

/-!  ## Theorems about the claims  -/

/-- C2: on the ledger {Buy 100 on 15/01/2023 for 1000.00, Buy 100 on
15/01/2024 for 1200.00, Sell 150 on 20/08/2024 for 3000.00} under FIFO
with the discount rule enabled, the engine matches 100 units to the
2023 buy (purchase cost 1000.00, sale proceeds 2000.00, gain 1000.00,
long-term) and 50 units to the 2024 buy (purchase cost 600.00, sale
proceeds 1000.00, gain 400.00, short-term), and the reported grand
total is 900.00 = 1000.00/2 + 400.00 (per-security combined figure
1400.00, residual holding 50 shares). -/
theorem c2_concrete_scenario :
    calculate [("X", [⟨⟨2023, 1, 15⟩, "buy", 100, 1000, 100⟩,
        ⟨⟨2024, 1, 15⟩, "buy", 100, 1200, 100⟩,
        ⟨⟨2024, 8, 20⟩, "sell", 150, 3000, 150⟩])] true false =
      some ⟨[("X", 1400)], 900, [("X", 50)],
        [NarrEvent.sellHeader 150 "X" ⟨2024, 8, 20⟩ 3000,
         NarrEvent.matched 100 ⟨2023, 1, 15⟩ 1000 2000 1000 true,
         NarrEvent.matched 50 ⟨2024, 1, 15⟩ 600 1000 400 false],
        ⟨2024, 7, 1⟩, ⟨2025, 6, 30⟩, true⟩ := by
  simp [calculate, sort_dict_ascending_by_date, List.insertionSort, List.orderedInsert,
    calculate_latest_tax_year, latestSellFold, lastSell, filter_for_latest_tax_year,
    calculate_capital_gains, calcGainsAux, processStock, strategyCands, matchLoop,
    recordMatch, recordGain, minimizeKey, pricePerUnit, fractional_purchase_price,
    fractional_sell_price, capital_gain, relativedeltaYears, addMonths, daysInMonth,
    isLeapYear, Date.le, Date.lt, shares_you_still_own, calculate_total_capital_gains]
  norm_num

/-- C1: on a ledger that oversells (Buy 10, then Sell 20 of `STK`, the
sell inside the resolved window), the engine does fail with the
overselling error naming the security and the residual quantity (10),
and the returned gains mapping and narrative are empty — but the run
does not abort: `calculate` ignores the empty-result sentinel and still
hands a report to `print_results`, so the summary files are written,
with an empty per-security breakdown, a $0.00 total, and a holdings
snapshot taken from the partially consumed ledger. -/
theorem c1_oversell_still_writes_report :
    (calculate_capital_gains
        [("STK", [⟨⟨2024, 1, 10⟩, "buy", 10, 100, 10⟩,
          ⟨⟨2024, 8, 20⟩, "sell", 20, 300, 20⟩])]
        ⟨2024, 7, 1⟩ false false).2 =
      Except.error (CalcErr.oversell "STK" 10) ∧
    calculate [("STK", [⟨⟨2024, 1, 10⟩, "buy", 10, 100, 10⟩,
        ⟨⟨2024, 8, 20⟩, "sell", 20, 300, 20⟩])] false false =
      some ⟨[], 0, [("STK", 0)], [], ⟨2024, 7, 1⟩, ⟨2025, 6, 30⟩, false⟩ := by
  constructor
  · simp [calculate_capital_gains, calcGainsAux, processStock, strategyCands,
      matchLoop, recordMatch, recordGain, fractional_purchase_price,
      fractional_sell_price, capital_gain, relativedeltaYears, addMonths,
      daysInMonth, isLeapYear, Date.le, Date.lt]
  · simp [calculate, sort_dict_ascending_by_date, List.insertionSort, List.orderedInsert,
      calculate_latest_tax_year, latestSellFold, lastSell, filter_for_latest_tax_year,
      calculate_capital_gains, calcGainsAux, processStock, strategyCands, matchLoop,
      recordMatch, recordGain, fractional_purchase_price,
      fractional_sell_price, capital_gain, relativedeltaYears, addMonths, daysInMonth,
      isLeapYear, Date.le, Date.lt, shares_you_still_own, calculate_total_capital_gains]

/-- C7: the rounded purchase cost never exceeds the true unrounded
cost, the rounded sale proceeds are never below the true unrounded
proceeds, and the recorded gain is never below the true unrounded gain:
the computed gain is never understated. -/
theorem c7_conservative_rounding (shares : Int) (b s : Tx) :
    fractional_purchase_price shares b ≤
        (shares : Rat) * b.total_value / (b.quantity : Rat) ∧
    (shares : Rat) * s.total_value / (s.quantity : Rat) ≤
        fractional_sell_price shares s ∧
    (shares : Rat) * s.total_value / (s.quantity : Rat) -
        (shares : Rat) * b.total_value / (b.quantity : Rat) ≤
      capital_gain shares b s := by
  have h100 : (0 : Rat) < 100 := by norm_num
  have hpc : fractional_purchase_price shares b ≤
      (shares : Rat) * b.total_value / (b.quantity : Rat) := by
    unfold fractional_purchase_price
    rw [div_le_iff₀ h100]
    calc ((⌊(shares : Rat) * 100 * b.total_value / (b.quantity : Rat)⌋ : Int) : Rat)
        ≤ (shares : Rat) * 100 * b.total_value / (b.quantity : Rat) := Int.floor_le _
      _ = (shares : Rat) * b.total_value / (b.quantity : Rat) * 100 := by ring
  have hsp : (shares : Rat) * s.total_value / (s.quantity : Rat) ≤
      fractional_sell_price shares s := by
    unfold fractional_sell_price
    rw [le_div_iff₀ h100]
    calc (shares : Rat) * s.total_value / (s.quantity : Rat) * 100
        = (shares : Rat) * 100 * s.total_value / (s.quantity : Rat) := by ring
      _ ≤ ((⌈(shares : Rat) * 100 * s.total_value / (s.quantity : Rat)⌉ : Int) : Rat) :=
          Int.le_ceil _
  refine ⟨hpc, hsp, ?_⟩
  have hgap : (shares : Rat) * s.total_value / (s.quantity : Rat) -
      (shares : Rat) * b.total_value / (b.quantity : Rat) ≤
      fractional_sell_price shares s - fractional_purchase_price shares b :=
    sub_le_sub hsp hpc
  refine le_trans hgap ?_
  unfold capital_gain
  rw [le_div_iff₀ h100]
  calc (fractional_sell_price shares s - fractional_purchase_price shares b) * 100
      ≤ ((⌈(fractional_sell_price shares s - fractional_purchase_price shares b) * 100⌉ : Int) : Rat) :=
        Int.le_ceil _

/-- Folding addition of `f` over a list starting from `a` is `a` plus
the sum of the mapped list (bridges the source's `reduce` to a sum). -/
theorem foldl_add_eq_sum {α : Type} (f : α → Rat) :
    ∀ (l : List α) (a : Rat), l.foldl (fun acc x => acc + f x) a = a + (l.map f).sum
  | [], a => by simp
  | x :: l, a => by
    simp only [List.foldl, List.map, List.sum_cons]
    rw [foldl_add_eq_sum f l (a + f x)]
    ring

/-- C9: with the discount rule enabled the grand total is (sum of
long-term totals over securities)/2 plus (sum of short-term totals),
the halving applied once at the total level; and for either flag value
the per-security combined figures are the unreduced
`short_term_total + long_term_total`. -/
theorem c9_aggregation (gains : List (String × GainsSplit)) :
    (calculate_total_capital_gains gains true).2 =
      (gains.map (fun p => p.2.twelve_months)).sum / 2 +
        (gains.map (fun p => p.2.under_twelve_months)).sum ∧
    ∀ rule : Bool, (calculate_total_capital_gains gains rule).1 =
      gains.map (fun p => (p.1, p.2.twelve_months + p.2.under_twelve_months)) := by
  constructor
  · simp [calculate_total_capital_gains, foldl_add_eq_sum]
  · intro rule
    simp [calculate_total_capital_gains]

/-- The sort key of claim C5, stated in the claim's own words: with
`raw` the per-unit sale price minus the per-unit purchase price, the
key is `raw / 2` exactly when the years component of the date
difference is at least 1 and `raw > 0`, else `raw` itself.  Used only
to compare against the engine's `minimizeKey`. -/
def claimKeyC5 (s b : Tx) : Rat :=
  let raw : Rat := s.total_value / (s.quantity : Rat) - b.total_value / (b.quantity : Rat)
  if 1 ≤ relativedeltaYears s.date b.date ∧ 0 < raw then raw / 2 else raw

/-- `orderedInsert` only looks at the relation extensionally. -/
theorem orderedInsert_congr {α : Type} {r₁ r₂ : α → α → Prop}
    [DecidableRel r₁] [DecidableRel r₂] (h : ∀ a b, r₁ a b ↔ r₂ a b) (a : α) :
    ∀ l : List α, List.orderedInsert r₁ a l = List.orderedInsert r₂ a l
  | [] => rfl
  | b :: l => by
    simp only [List.orderedInsert]
    by_cases hr : r₁ a b
    · rw [if_pos hr, if_pos ((h a b).mp hr)]
    · rw [if_neg hr, if_neg (fun hc => hr ((h a b).mpr hc)),
        orderedInsert_congr h a l]

/-- `insertionSort` only looks at the relation extensionally. -/
theorem insertionSort_congr {α : Type} {r₁ r₂ : α → α → Prop}
    [DecidableRel r₁] [DecidableRel r₂] (h : ∀ a b, r₁ a b ↔ r₂ a b) :
    ∀ l : List α, List.insertionSort r₁ l = List.insertionSort r₂ l
  | [] => rfl
  | a :: l => by
    rw [List.insertionSort, List.insertionSort, insertionSort_congr h l,
      orderedInsert_congr h a]

/-- C5: under minimize-gain with the discount rule, the engine's sort
key equals the claimed key (raw per-unit gain, halved exactly when the
holding period's years component is ≥ 1 and raw > 0), and the
candidate reorder performed before each sell's matching is the stable
ascending sort by that key. -/
theorem c5_minimize_discount_key (s : Tx) (front : List Tx) :
    (∀ b : Tx, minimizeKey s b = claimKeyC5 s b) ∧
    strategyCands true true s front =
      List.insertionSort (fun a b => claimKeyC5 s a ≤ claimKeyC5 s b) front := by
  have hk : ∀ b : Tx, minimizeKey s b = claimKeyC5 s b := by
    intro b
    simp only [minimizeKey, claimKeyC5, pricePerUnit, sub_pos]
  refine ⟨hk, ?_⟩
  simp only [strategyCands, if_pos]
  exact insertionSort_congr (fun a b => by rw [hk a, hk b]) front

/-- C3: one step of the match loop on a qualifying buy candidate `b`
with `share_diff = b.remaining_shares - remaining_to_sell`.  If
`share_diff < 0` the buy is fully consumed: a match of
`b.remaining_shares` units is recorded (when the sell is in window),
`b` is removed, and the loop continues on the next candidates with
`remaining_to_sell = |share_diff|`.  Otherwise a match of
`remaining_to_sell` units is recorded, `b.remaining_shares` becomes
`share_diff` (the buy removed exactly when `share_diff = 0`), the
loop ends with the remaining candidates untouched, and the sell
itself is removed from the ledger: `processStock` continues on the
rest of the transactions without it. -/
theorem c3_match_step (start : Date) (rule mini : Bool) (stock : String)
    (s b : Tx) (cs rest front : List Tx) (rem : Int)
    (g : GainsSplit) (n : List NarrEvent)
    (hb : b.type = "buy") (hbr : 0 < b.remaining_shares) (hrem : 0 < rem) :
    (b.remaining_shares - rem < 0 →
      matchLoop start s (b :: cs) rem g n =
        matchLoop start s cs (rem - b.remaining_shares)
          (if Date.le start s.date then
            (recordMatch g n b.remaining_shares b s
              (decide (1 ≤ relativedeltaYears s.date b.date))).1 else g)
          (if Date.le start s.date then
            (recordMatch g n b.remaining_shares b s
              (decide (1 ≤ relativedeltaYears s.date b.date))).2 else n)) ∧
    (0 ≤ b.remaining_shares - rem →
      matchLoop start s (b :: cs) rem g n =
        ((if b.remaining_shares - rem = 0 then cs
          else { b with remaining_shares := b.remaining_shares - rem } :: cs), 0,
         (if Date.le start s.date then
           (recordMatch g n rem b s
             (decide (1 ≤ relativedeltaYears s.date b.date))).1 else g),
         (if Date.le start s.date then
           (recordMatch g n rem b s
             (decide (1 ≤ relativedeltaYears s.date b.date))).2 else n))) ∧
    (s.type = "sell" → 0 < s.remaining_shares →
      (matchLoop start s (strategyCands rule mini s front) s.remaining_shares g
          (if Date.le start s.date then
            n ++ [NarrEvent.sellHeader s.remaining_shares stock s.date s.total_value]
           else n)).2.1 ≤ 0 →
      processStock start rule mini stock front (s :: rest) g n =
        (let r := matchLoop start s (strategyCands rule mini s front) s.remaining_shares g
          (if Date.le start s.date then
            n ++ [NarrEvent.sellHeader s.remaining_shares stock s.date s.total_value]
           else n)
         processStock start rule mini stock r.1 rest r.2.2.1 r.2.2.2)) := by
  have hskip : ¬ (b.type ≠ "buy" ∨ b.remaining_shares ≤ 0) := by
    push_neg
    exact ⟨hb, hbr⟩
  refine ⟨?_, ?_, ?_⟩
  · intro hdiff
    simp only [matchLoop, if_neg (not_le.mpr hrem), if_neg hskip, if_pos hdiff]
    have habs : |b.remaining_shares - rem| = rem - b.remaining_shares := by
      rw [abs_of_neg hdiff]; ring
    rw [habs]
    by_cases hw : Date.le start s.date
    · simp only [if_pos hw]
    · simp only [if_neg hw]
  · intro hdiff
    simp only [matchLoop, if_neg (not_le.mpr hrem), if_neg hskip,
      if_neg (not_lt.mpr hdiff)]
    by_cases hw : Date.le start s.date
    · simp only [if_pos hw]
    · simp only [if_neg hw]
  · intro hsell hsrem hloop
    simp only [processStock, if_neg (by simp [hsell] : ¬ s.type ≠ "sell"),
      if_neg (not_le.mpr hsrem)]
    rw [if_neg (not_lt.mpr hloop)]

/-- Witness for C3 at a concrete step: the sell needs 5 shares, the
candidate buy holds 3, so the buy is fully consumed and the loop
continues needing 2. -/
theorem c3_match_step_witness :
    ((⟨⟨2023, 1, 10⟩, "buy", 3, 30, 3⟩ : Tx).remaining_shares - 5 < 0 →
      matchLoop ⟨2024, 7, 1⟩ ⟨⟨2024, 8, 1⟩, "sell", 5, 100, 5⟩
          [⟨⟨2023, 1, 10⟩, "buy", 3, 30, 3⟩] 5 ⟨0, 0⟩ [] =
        matchLoop ⟨2024, 7, 1⟩ ⟨⟨2024, 8, 1⟩, "sell", 5, 100, 5⟩ []
          (5 - (⟨⟨2023, 1, 10⟩, "buy", 3, 30, 3⟩ : Tx).remaining_shares)
          (if Date.le ⟨2024, 7, 1⟩ (⟨⟨2024, 8, 1⟩, "sell", 5, 100, 5⟩ : Tx).date then
            (recordMatch ⟨0, 0⟩ [] (⟨⟨2023, 1, 10⟩, "buy", 3, 30, 3⟩ : Tx).remaining_shares
              ⟨⟨2023, 1, 10⟩, "buy", 3, 30, 3⟩ ⟨⟨2024, 8, 1⟩, "sell", 5, 100, 5⟩
              (decide (1 ≤ relativedeltaYears
                (⟨⟨2024, 8, 1⟩, "sell", 5, 100, 5⟩ : Tx).date
                (⟨⟨2023, 1, 10⟩, "buy", 3, 30, 3⟩ : Tx).date))).1 else ⟨0, 0⟩)
          (if Date.le ⟨2024, 7, 1⟩ (⟨⟨2024, 8, 1⟩, "sell", 5, 100, 5⟩ : Tx).date then
            (recordMatch ⟨0, 0⟩ [] (⟨⟨2023, 1, 10⟩, "buy", 3, 30, 3⟩ : Tx).remaining_shares
              ⟨⟨2023, 1, 10⟩, "buy", 3, 30, 3⟩ ⟨⟨2024, 8, 1⟩, "sell", 5, 100, 5⟩
              (decide (1 ≤ relativedeltaYears
                (⟨⟨2024, 8, 1⟩, "sell", 5, 100, 5⟩ : Tx).date
                (⟨⟨2023, 1, 10⟩, "buy", 3, 30, 3⟩ : Tx).date))).2 else [])) ∧
    (0 ≤ (⟨⟨2023, 1, 10⟩, "buy", 3, 30, 3⟩ : Tx).remaining_shares - 5 →
      matchLoop ⟨2024, 7, 1⟩ ⟨⟨2024, 8, 1⟩, "sell", 5, 100, 5⟩
          [⟨⟨2023, 1, 10⟩, "buy", 3, 30, 3⟩] 5 ⟨0, 0⟩ [] =
        ((if (⟨⟨2023, 1, 10⟩, "buy", 3, 30, 3⟩ : Tx).remaining_shares - 5 = 0 then []
          else [{ (⟨⟨2023, 1, 10⟩, "buy", 3, 30, 3⟩ : Tx) with
            remaining_shares := (⟨⟨2023, 1, 10⟩, "buy", 3, 30, 3⟩ : Tx).remaining_shares - 5 }]), 0,
         (if Date.le ⟨2024, 7, 1⟩ (⟨⟨2024, 8, 1⟩, "sell", 5, 100, 5⟩ : Tx).date then
           (recordMatch ⟨0, 0⟩ [] 5 ⟨⟨2023, 1, 10⟩, "buy", 3, 30, 3⟩
             ⟨⟨2024, 8, 1⟩, "sell", 5, 100, 5⟩
             (decide (1 ≤ relativedeltaYears
               (⟨⟨2024, 8, 1⟩, "sell", 5, 100, 5⟩ : Tx).date
               (⟨⟨2023, 1, 10⟩, "buy", 3, 30, 3⟩ : Tx).date))).1 else ⟨0, 0⟩),
         (if Date.le ⟨2024, 7, 1⟩ (⟨⟨2024, 8, 1⟩, "sell", 5, 100, 5⟩ : Tx).date then
           (recordMatch ⟨0, 0⟩ [] 5 ⟨⟨2023, 1, 10⟩, "buy", 3, 30, 3⟩
             ⟨⟨2024, 8, 1⟩, "sell", 5, 100, 5⟩
             (decide (1 ≤ relativedeltaYears
               (⟨⟨2024, 8, 1⟩, "sell", 5, 100, 5⟩ : Tx).date
               (⟨⟨2023, 1, 10⟩, "buy", 3, 30, 3⟩ : Tx).date))).2 else []))) ∧
    ((⟨⟨2024, 8, 1⟩, "sell", 5, 100, 5⟩ : Tx).type = "sell" →
      0 < (⟨⟨2024, 8, 1⟩, "sell", 5, 100, 5⟩ : Tx).remaining_shares →
      (matchLoop ⟨2024, 7, 1⟩ ⟨⟨2024, 8, 1⟩, "sell", 5, 100, 5⟩
          (strategyCands false false ⟨⟨2024, 8, 1⟩, "sell", 5, 100, 5⟩
            [⟨⟨2023, 1, 10⟩, "buy", 7, 70, 7⟩])
          (⟨⟨2024, 8, 1⟩, "sell", 5, 100, 5⟩ : Tx).remaining_shares ⟨0, 0⟩
          (if Date.le ⟨2024, 7, 1⟩ (⟨⟨2024, 8, 1⟩, "sell", 5, 100, 5⟩ : Tx).date then
            [] ++ [NarrEvent.sellHeader (⟨⟨2024, 8, 1⟩, "sell", 5, 100, 5⟩ : Tx).remaining_shares
              "W" (⟨⟨2024, 8, 1⟩, "sell", 5, 100, 5⟩ : Tx).date
              (⟨⟨2024, 8, 1⟩, "sell", 5, 100, 5⟩ : Tx).total_value]
           else [])).2.1 ≤ 0 →
      processStock ⟨2024, 7, 1⟩ false false "W"
          [⟨⟨2023, 1, 10⟩, "buy", 7, 70, 7⟩]
          [⟨⟨2024, 8, 1⟩, "sell", 5, 100, 5⟩] ⟨0, 0⟩ [] =
        (let r := matchLoop ⟨2024, 7, 1⟩ ⟨⟨2024, 8, 1⟩, "sell", 5, 100, 5⟩
          (strategyCands false false ⟨⟨2024, 8, 1⟩, "sell", 5, 100, 5⟩
            [⟨⟨2023, 1, 10⟩, "buy", 7, 70, 7⟩])
          (⟨⟨2024, 8, 1⟩, "sell", 5, 100, 5⟩ : Tx).remaining_shares ⟨0, 0⟩
          (if Date.le ⟨2024, 7, 1⟩ (⟨⟨2024, 8, 1⟩, "sell", 5, 100, 5⟩ : Tx).date then
            [] ++ [NarrEvent.sellHeader (⟨⟨2024, 8, 1⟩, "sell", 5, 100, 5⟩ : Tx).remaining_shares
              "W" (⟨⟨2024, 8, 1⟩, "sell", 5, 100, 5⟩ : Tx).date
              (⟨⟨2024, 8, 1⟩, "sell", 5, 100, 5⟩ : Tx).total_value]
           else [])
         processStock ⟨2024, 7, 1⟩ false false "W" r.1 [] r.2.2.1 r.2.2.2)) :=
  c3_match_step ⟨2024, 7, 1⟩ false false "W" ⟨⟨2024, 8, 1⟩, "sell", 5, 100, 5⟩
    ⟨⟨2023, 1, 10⟩, "buy", 3, 30, 3⟩ [] [] [⟨⟨2023, 1, 10⟩, "buy", 7, 70, 7⟩] 5 ⟨0, 0⟩ []
    rfl (by decide) (by decide)

/-- The surviving candidates and the leftover quantity computed by the
match loop do not depend on the accumulator or narrative threaded
through it. -/
theorem matchLoop_acc_irrel (start : Date) (s : Tx) (cs : List Tx) :
    ∀ (rem : Int) (g g' : GainsSplit) (n n' : List NarrEvent),
      (matchLoop start s cs rem g n).1 = (matchLoop start s cs rem g' n').1 ∧
      (matchLoop start s cs rem g n).2.1 = (matchLoop start s cs rem g' n').2.1 := by
  induction cs with
  | nil => intro rem g g' n n'; exact ⟨rfl, rfl⟩
  | cons b cs ih =>
    intro rem g g' n n'
    by_cases h0 : rem ≤ 0
    · simp [matchLoop, if_pos h0]
    · by_cases hskip : b.type ≠ "buy" ∨ b.remaining_shares ≤ 0
      · have h := ih rem g g' n n'
        simp only [matchLoop, if_neg h0, if_pos hskip]
        exact ⟨by rw [h.1], h.2⟩
      · simp only [matchLoop, if_neg h0, if_neg hskip]
        by_cases hd : b.remaining_shares - rem < 0
        · simp only [if_pos hd]
          exact ih _ _ _ _ _
        · simp only [if_neg hd]
          exact ⟨by trivial, by trivial⟩

/-- When the sell is in window for two different window starts, the
match loop behaves identically. -/
theorem matchLoop_start_irrel (start start' : Date) (s : Tx)
    (hw : Date.le start s.date) (hw' : Date.le start' s.date) (cs : List Tx) :
    ∀ (rem : Int) (g : GainsSplit) (n : List NarrEvent),
      matchLoop start s cs rem g n = matchLoop start' s cs rem g n := by
  induction cs with
  | nil => intro rem g n; rfl
  | cons b cs ih =>
    intro rem g n
    by_cases h0 : rem ≤ 0
    · simp only [matchLoop, if_pos h0]
    · by_cases hskip : b.type ≠ "buy" ∨ b.remaining_shares ≤ 0
      · simp only [matchLoop, if_neg h0, if_pos hskip, ih]
      · simp only [matchLoop, if_neg h0, if_neg hskip, if_pos hw, if_pos hw']
        by_cases hd : b.remaining_shares - rem < 0
        · simp only [if_pos hd, ih]
        · simp only [if_neg hd]

/-- When the sell is out of window, the match loop mutates the ledger
exactly as it would in window but records nothing: the accumulator and
narrative come back untouched. -/
theorem matchLoop_out_of_window (start : Date) (s : Tx)
    (hw : ¬ Date.le start s.date) (cs : List Tx) :
    ∀ (rem : Int) (g : GainsSplit) (n : List NarrEvent),
      matchLoop start s cs rem g n =
        ((matchLoop s.date s cs rem g n).1,
         (matchLoop s.date s cs rem g n).2.1, g, n) := by
  induction cs with
  | nil => intro rem g n; rfl
  | cons b cs ih =>
    intro rem g n
    by_cases h0 : rem ≤ 0
    · simp only [matchLoop, if_pos h0]
    · by_cases hskip : b.type ≠ "buy" ∨ b.remaining_shares ≤ 0
      · simp only [matchLoop, if_neg h0, if_pos hskip, ih]
      · simp only [matchLoop, if_neg h0, if_neg hskip, if_neg hw,
          if_pos (Date.le_refl s.date)]
        by_cases hd : b.remaining_shares - rem < 0
        · simp only [if_pos hd, ih]
          have hacc := matchLoop_acc_irrel s.date s cs |b.remaining_shares - rem| g
            (recordMatch g n b.remaining_shares b s
              (decide (1 ≤ relativedeltaYears s.date b.date))).1 n
            (recordMatch g n b.remaining_shares b s
              (decide (1 ≤ relativedeltaYears s.date b.date))).2
          rw [hacc.1, hacc.2]
        · simp only [if_neg hd]

/-- C4: a match's gain (and narrative record) is produced exactly when
the sell's date lies within `[start_date, end_date]` — in particular a
sell dated exactly `start_date` is recorded and one dated earlier is
not — while the surviving candidates and the leftover quantity are the
same whatever the window, so out-of-window sells still consume buy
lots identically.  The hypothesis `s.date ≤ end_date` is what the tax
year resolver guarantees for every sell of the ledger it resolved. -/
theorem c4_window_gating (start end_ : Date) (s : Tx) (cs : List Tx)
    (rem : Int) (g : GainsSplit) (n : List NarrEvent)
    (hend : Date.le s.date end_) :
    (matchLoop start s cs rem g n).1 = (matchLoop s.date s cs rem g n).1 ∧
    (matchLoop start s cs rem g n).2.1 = (matchLoop s.date s cs rem g n).2.1 ∧
    (matchLoop start s cs rem g n).2.2 =
      (if Date.le start s.date ∧ Date.le s.date end_
       then (matchLoop s.date s cs rem g n).2.2 else (g, n)) := by
  by_cases hw : Date.le start s.date
  · have h := matchLoop_start_irrel start s.date s hw (Date.le_refl s.date) cs rem g n
    rw [h, if_pos ⟨hw, hend⟩]
    exact ⟨rfl, rfl, rfl⟩
  · have h := matchLoop_out_of_window start s hw cs rem g n
    rw [h, if_neg (fun hc => hw hc.1)]
    exact ⟨rfl, rfl, rfl⟩

/-- Witness for C4 at the window boundary: a sell dated exactly on
`start_date` (1 July 2024), one buy candidate, window end 30 June
2025. -/
theorem c4_window_gating_witness :
    (matchLoop ⟨2024, 7, 1⟩ ⟨⟨2024, 7, 1⟩, "sell", 2, 20, 2⟩
        [⟨⟨2024, 1, 1⟩, "buy", 2, 10, 2⟩] 2 ⟨0, 0⟩ []).1 =
      (matchLoop ⟨2024, 7, 1⟩ ⟨⟨2024, 7, 1⟩, "sell", 2, 20, 2⟩
        [⟨⟨2024, 1, 1⟩, "buy", 2, 10, 2⟩] 2 ⟨0, 0⟩ []).1 ∧
    (matchLoop ⟨2024, 7, 1⟩ ⟨⟨2024, 7, 1⟩, "sell", 2, 20, 2⟩
        [⟨⟨2024, 1, 1⟩, "buy", 2, 10, 2⟩] 2 ⟨0, 0⟩ []).2.1 =
      (matchLoop ⟨2024, 7, 1⟩ ⟨⟨2024, 7, 1⟩, "sell", 2, 20, 2⟩
        [⟨⟨2024, 1, 1⟩, "buy", 2, 10, 2⟩] 2 ⟨0, 0⟩ []).2.1 ∧
    (matchLoop ⟨2024, 7, 1⟩ ⟨⟨2024, 7, 1⟩, "sell", 2, 20, 2⟩
        [⟨⟨2024, 1, 1⟩, "buy", 2, 10, 2⟩] 2 ⟨0, 0⟩ []).2.2 =
      (if Date.le ⟨2024, 7, 1⟩ (⟨⟨2024, 7, 1⟩, "sell", 2, 20, 2⟩ : Tx).date ∧
          Date.le (⟨⟨2024, 7, 1⟩, "sell", 2, 20, 2⟩ : Tx).date ⟨2025, 6, 30⟩
       then (matchLoop (⟨⟨2024, 7, 1⟩, "sell", 2, 20, 2⟩ : Tx).date
          ⟨⟨2024, 7, 1⟩, "sell", 2, 20, 2⟩
          [⟨⟨2024, 1, 1⟩, "buy", 2, 10, 2⟩] 2 ⟨0, 0⟩ []).2.2
       else (⟨0, 0⟩, [])) :=
  c4_window_gating ⟨2024, 7, 1⟩ ⟨2025, 6, 30⟩ ⟨⟨2024, 7, 1⟩, "sell", 2, 20, 2⟩
    [⟨⟨2024, 1, 1⟩, "buy", 2, 10, 2⟩] 2 ⟨0, 0⟩ [] (by decide)


/-- A candidate the match loop actually consumes from: a buy lot with
remaining shares. -/
def qualifying (t : Tx) : Bool := decide (t.type = "buy" ∧ 0 < t.remaining_shares)

/-- The leftover quantity, accumulator and narrative of the match loop
depend only on the qualifying candidates (the skipped entries are kept
but never touched). -/
theorem matchLoop_filter_qualifying (start : Date) (s : Tx) (cs : List Tx) :
    ∀ (rem : Int) (g : GainsSplit) (n : List NarrEvent),
      (matchLoop start s cs rem g n).2 =
        (matchLoop start s (cs.filter qualifying) rem g n).2 := by
  induction cs with
  | nil => intro rem g n; rfl
  | cons b cs ih =>
    intro rem g n
    by_cases hq : qualifying b = true
    · rw [List.filter_cons_of_pos hq]
      have hnskip : ¬ (b.type ≠ "buy" ∨ b.remaining_shares ≤ 0) := by
        have := of_decide_eq_true hq
        push_neg
        exact this
      by_cases h0 : rem ≤ 0
      · simp only [matchLoop, if_pos h0]
      · simp only [matchLoop, if_neg h0, if_neg hnskip]
        by_cases hd : b.remaining_shares - rem < 0
        · simp only [if_pos hd]
          exact ih _ _ _
        · simp only [if_neg hd]
    · rw [List.filter_cons_of_neg hq]
      have hskip : b.type ≠ "buy" ∨ b.remaining_shares ≤ 0 := by
        have := of_decide_eq_false (eq_false_of_ne_true hq)
        push_neg at this
        by_cases hb : b.type = "buy"
        · exact Or.inr (this hb)
        · exact Or.inl hb
      by_cases h0 : rem ≤ 0
      · cases hfc : List.filter qualifying cs with
        | nil => simp only [matchLoop, if_pos h0, hfc]
        | cons c cs2 => simp only [matchLoop, if_pos h0, hfc]
      · simp only [matchLoop, if_neg h0, if_pos hskip]
        exact ih _ _ _

/-- Whatever the strategy, the candidate reorder is a permutation of
the candidates. -/
theorem strategyCands_perm (rule mini : Bool) (s : Tx) (front : List Tx) :
    List.Perm (strategyCands rule mini s front) front := by
  cases mini with
  | false => simp [strategyCands]
  | true =>
    cases rule with
    | false => simpa [strategyCands] using List.perm_insertionSort _ front
    | true => simpa [strategyCands] using List.perm_insertionSort _ front

/-- C8: when exactly one surviving buy lot is among a sell's
candidates, every strategy (FIFO, minimize without discount, minimize
with discount — any flag combination) leaves the match loop with the
same leftover quantity, the same recorded gains and the same
narrative: the gain recorded for that sell is identical. -/
theorem c8_single_lot_strategy_equiv (start : Date) (s b : Tx) (cs : List Tx)
    (rem : Int) (g : GainsSplit) (n : List NarrEvent)
    (rule mini rule2 mini2 : Bool)
    (h : cs.filter qualifying = [b]) :
    (matchLoop start s (strategyCands rule mini s cs) rem g n).2 =
      (matchLoop start s (strategyCands rule2 mini2 s cs) rem g n).2 := by
  have key : ∀ (ru mi : Bool), (strategyCands ru mi s cs).filter qualifying = [b] := by
    intro ru mi
    have hp : List.Perm ((strategyCands ru mi s cs).filter qualifying)
        (cs.filter qualifying) := (strategyCands_perm ru mi s cs).filter qualifying
    rw [h] at hp
    exact List.perm_singleton.mp hp
  rw [matchLoop_filter_qualifying start s (strategyCands rule mini s cs) rem g n,
    matchLoop_filter_qualifying start s (strategyCands rule2 mini2 s cs) rem g n,
    key rule mini, key rule2 mini2]

/-- Witness for C8: one surviving buy lot among the candidates (next
to an exhausted lot the loop skips); FIFO agrees with
minimize-with-discount. -/
theorem c8_single_lot_strategy_equiv_witness :
    (matchLoop ⟨2024, 7, 1⟩ ⟨⟨2024, 8, 1⟩, "sell", 4, 80, 4⟩
        (strategyCands false false ⟨⟨2024, 8, 1⟩, "sell", 4, 80, 4⟩
          [⟨⟨2023, 2, 1⟩, "buy", 6, 30, 0⟩, ⟨⟨2023, 3, 1⟩, "buy", 6, 30, 6⟩])
        4 ⟨0, 0⟩ []).2 =
      (matchLoop ⟨2024, 7, 1⟩ ⟨⟨2024, 8, 1⟩, "sell", 4, 80, 4⟩
        (strategyCands true true ⟨⟨2024, 8, 1⟩, "sell", 4, 80, 4⟩
          [⟨⟨2023, 2, 1⟩, "buy", 6, 30, 0⟩, ⟨⟨2023, 3, 1⟩, "buy", 6, 30, 6⟩])
        4 ⟨0, 0⟩ []).2 :=
  c8_single_lot_strategy_equiv ⟨2024, 7, 1⟩ ⟨⟨2024, 8, 1⟩, "sell", 4, 80, 4⟩
    ⟨⟨2023, 3, 1⟩, "buy", 6, 30, 6⟩
    [⟨⟨2023, 2, 1⟩, "buy", 6, 30, 0⟩, ⟨⟨2023, 3, 1⟩, "buy", 6, 30, 6⟩]
    4 ⟨0, 0⟩ [] false false true true (by decide)


/-- Sum of `remaining_shares` over the buy transactions of a list. -/
def buyRemSum (l : List Tx) : Int :=
  (l.map (fun t => if t.type = "buy" then t.remaining_shares else 0)).sum

/-- Sum of original `quantity` over the buy transactions of a list. -/
def buyQtySum (l : List Tx) : Int :=
  (l.map (fun t => if t.type = "buy" then t.quantity else 0)).sum

/-- Sum of original `quantity` over the sell transactions of a list. -/
def sellQtySum (l : List Tx) : Int :=
  (l.map (fun t => if t.type = "sell" then t.quantity else 0)).sum

theorem buyRemSum_perm {l1 l2 : List Tx} (h : List.Perm l1 l2) :
    buyRemSum l1 = buyRemSum l2 :=
  (h.map _).sum_eq

theorem buyRemSum_cons (t : Tx) (l : List Tx) :
    buyRemSum (t :: l) =
      (if t.type = "buy" then t.remaining_shares else 0) + buyRemSum l := by
  simp [buyRemSum]

theorem buyRemSum_append (l1 l2 : List Tx) :
    buyRemSum (l1 ++ l2) = buyRemSum l1 + buyRemSum l2 := by
  simp [buyRemSum]

/-- Share conservation across one run of the match loop: the shares
removed from the buy candidates are exactly the shares taken off the
sell's remaining need. -/
theorem matchLoop_conserve (start : Date) (s : Tx) (cs : List Tx) :
    ∀ (rem : Int) (g : GainsSplit) (n : List NarrEvent),
      buyRemSum (matchLoop start s cs rem g n).1 + rem =
        buyRemSum cs + (matchLoop start s cs rem g n).2.1 := by
  induction cs with
  | nil => intro rem g n; simp [matchLoop]
  | cons b cs ih =>
    intro rem g n
    by_cases h0 : rem ≤ 0
    · simp only [matchLoop, if_pos h0]
    · by_cases hskip : b.type ≠ "buy" ∨ b.remaining_shares ≤ 0
      · have h := ih rem g n
        simp only [matchLoop, if_neg h0, if_pos hskip]
        rw [buyRemSum_cons, buyRemSum_cons]
        omega
      · have hb : b.type = "buy" := by
          rcases not_or.mp hskip with ⟨h1, _⟩
          exact not_not.mp h1
        simp only [matchLoop, if_neg h0, if_neg hskip]
        by_cases hd : b.remaining_shares - rem < 0
        · simp only [if_pos hd]
          have habs : |b.remaining_shares - rem| = rem - b.remaining_shares := by
            rw [abs_of_neg hd]; ring
          rw [habs]
          have h := ih (rem - b.remaining_shares)
            ((if Date.le start s.date then
              recordMatch g n b.remaining_shares b s
                (decide (1 ≤ relativedeltaYears s.date b.date)) else (g, n)).1)
            ((if Date.le start s.date then
              recordMatch g n b.remaining_shares b s
                (decide (1 ≤ relativedeltaYears s.date b.date)) else (g, n)).2)
          rw [buyRemSum_cons, if_pos hb]
          omega
        · simp only [if_neg hd]
          by_cases hz : b.remaining_shares - rem = 0
          · rw [if_pos hz, buyRemSum_cons, if_pos hb]
            omega
          · rw [if_neg hz, buyRemSum_cons, buyRemSum_cons]
            have hupd : ({ b with remaining_shares := b.remaining_shares - rem } : Tx).type
                = b.type := rfl
            have hupd2 : ({ b with remaining_shares := b.remaining_shares - rem } : Tx).remaining_shares
                = b.remaining_shares - rem := rfl
            rw [hupd, if_pos hb, if_pos hb, hupd2]
            omega

/-- The match loop never drives `remaining_shares` or the leftover
sell quantity negative. -/
theorem matchLoop_nonneg (start : Date) (s : Tx) (cs : List Tx) :
    ∀ (rem : Int) (g : GainsSplit) (n : List NarrEvent),
      (∀ t ∈ cs, 0 ≤ t.remaining_shares) → 0 ≤ rem →
      (∀ t ∈ (matchLoop start s cs rem g n).1, 0 ≤ t.remaining_shares) ∧
        0 ≤ (matchLoop start s cs rem g n).2.1 := by
  induction cs with
  | nil =>
    intro rem g n _ hrem
    exact ⟨by intro t ht; simp [matchLoop] at ht, hrem⟩
  | cons b cs ih =>
    intro rem g n hcs hrem
    by_cases h0 : rem ≤ 0
    · simp only [matchLoop, if_pos h0]
      exact ⟨hcs, hrem⟩
    · by_cases hskip : b.type ≠ "buy" ∨ b.remaining_shares ≤ 0
      · simp only [matchLoop, if_neg h0, if_pos hskip]
        have h := ih rem g n (fun t ht => hcs t (List.mem_cons_of_mem b ht)) hrem
        refine ⟨?_, h.2⟩
        intro t ht
        rcases List.mem_cons.mp ht with h1 | h2
        · rw [h1]; exact hcs b (List.mem_cons_self b cs)
        · exact h.1 t h2
      · simp only [matchLoop, if_neg h0, if_neg hskip]
        by_cases hd : b.remaining_shares - rem < 0
        · simp only [if_pos hd]
          have habs : (0 : Int) ≤ |b.remaining_shares - rem| := abs_nonneg _
          exact ih _ _ _ (fun t ht => hcs t (List.mem_cons_of_mem b ht)) habs
        · simp only [if_neg hd]
          constructor
          · intro t ht
            by_cases hz : b.remaining_shares - rem = 0
            · rw [if_pos hz] at ht
              exact hcs t (List.mem_cons_of_mem b ht)
            · rw [if_neg hz] at ht
              rcases List.mem_cons.mp ht with h1 | h2
              · rw [h1]
                show 0 ≤ b.remaining_shares - rem
                omega
              · exact hcs t (List.mem_cons_of_mem b h2)
          · exact le_refl 0

/-- Invariant of the per-security outer loop: remaining shares stay
non-negative, and on success the surviving buy shares are the shares
of the prefix plus the unprocessed buys minus the unprocessed sells. -/
theorem processStock_inv (start : Date) (rule mini : Bool) (stock : String)
    (rest : List Tx) :
    ∀ (front : List Tx) (g : GainsSplit) (n : List NarrEvent),
      (∀ t ∈ front, 0 ≤ t.remaining_shares) →
      (∀ t ∈ rest, 0 ≤ t.remaining_shares) →
      (∀ t ∈ rest, t.remaining_shares = t.quantity) →
      (∀ t ∈ (processStock start rule mini stock front rest g n).1,
          0 ≤ t.remaining_shares) ∧
      ((processStock start rule mini stock front rest g n).2.2.2 = none →
        buyRemSum (processStock start rule mini stock front rest g n).1 =
          buyRemSum front + buyQtySum rest - sellQtySum rest) := by
  induction rest with
  | nil =>
    intro front g n hf _ _
    refine ⟨hf, ?_⟩
    intro _
    simp [processStock, buyQtySum, sellQtySum]
  | cons t rest ih =>
    intro front g n hf hr hp
    have hr2 : ∀ x ∈ rest, 0 ≤ x.remaining_shares :=
      fun x hx => hr x (List.mem_cons_of_mem t hx)
    have hp2 : ∀ x ∈ rest, x.remaining_shares = x.quantity :=
      fun x hx => hp x (List.mem_cons_of_mem t hx)
    have ht0 : 0 ≤ t.remaining_shares := hr t (List.mem_cons_self t rest)
    have htq : t.remaining_shares = t.quantity := hp t (List.mem_cons_self t rest)
    by_cases hsell : t.type ≠ "sell"
    · simp only [processStock, if_pos hsell]
      have hf2 : ∀ x ∈ front ++ [t], 0 ≤ x.remaining_shares := by
        intro x hx
        rcases List.mem_append.mp hx with h1 | h2
        · exact hf x h1
        · rw [List.mem_singleton.mp h2]; exact ht0
      have h := ih (front ++ [t]) g n hf2 hr2 hp2
      refine ⟨h.1, ?_⟩
      intro hnone
      rw [h.2 hnone, buyRemSum_append]
      have hb1 : buyRemSum [t] = (if t.type = "buy" then t.remaining_shares else 0) := by
        simp [buyRemSum]
      have hq1 : buyQtySum (t :: rest) =
          (if t.type = "buy" then t.quantity else 0) + buyQtySum rest := by
        simp [buyQtySum]
      have hs1 : sellQtySum (t :: rest) =
          (if t.type = "sell" then t.quantity else 0) + sellQtySum rest := by
        simp [sellQtySum]
      rw [hb1, hq1, hs1, if_neg hsell]
      by_cases hbuy : t.type = "buy"
      · rw [if_pos hbuy, if_pos hbuy]
        omega
      · rw [if_neg hbuy, if_neg hbuy]
        omega
    · have hsell2 : t.type = "sell" := not_not.mp (by simpa using hsell)
      have hcands := strategyCands_perm rule mini t front
      have hcnn : ∀ x ∈ strategyCands rule mini t front, 0 ≤ x.remaining_shares :=
        fun x hx => hf x (hcands.mem_iff.mp hx)
      have hcsum : buyRemSum (strategyCands rule mini t front) = buyRemSum front :=
        buyRemSum_perm hcands
      by_cases h0 : t.remaining_shares ≤ 0
      · simp only [processStock, if_neg hsell, if_pos h0]
        constructor
        · intro x hx
          rcases List.mem_append.mp hx with h1 | h2
          · exact hcnn x h1
          · rcases List.mem_cons.mp h2 with h3 | h4
            · rw [h3]; exact ht0
            · exact hr2 x h4
        · intro hcontra
          exact absurd hcontra (by simp)
      · have hrem : 0 ≤ t.remaining_shares := ht0
        have hml := matchLoop_nonneg start t (strategyCands rule mini t front)
          t.remaining_shares g
          (if Date.le start t.date then
            n ++ [NarrEvent.sellHeader t.remaining_shares stock t.date t.total_value]
           else n) hcnn hrem
        have hmc := matchLoop_conserve start t (strategyCands rule mini t front)
          t.remaining_shares g
          (if Date.le start t.date then
            n ++ [NarrEvent.sellHeader t.remaining_shares stock t.date t.total_value]
           else n)
        by_cases hover : 0 <
            (matchLoop start t (strategyCands rule mini t front) t.remaining_shares g
              (if Date.le start t.date then
                n ++ [NarrEvent.sellHeader t.remaining_shares stock t.date t.total_value]
               else n)).2.1
        · simp only [processStock, if_neg hsell, if_neg h0, if_pos hover]
          constructor
          · intro x hx
            rcases List.mem_append.mp hx with h1 | h2
            · exact hml.1 x h1
            · rcases List.mem_cons.mp h2 with h3 | h4
              · rw [h3]; exact ht0
              · exact hr2 x h4
          · intro hcontra
            exact absurd hcontra (by simp)
        · simp only [processStock, if_neg hsell, if_neg h0, if_neg hover]
          have h := ih
            (matchLoop start t (strategyCands rule mini t front) t.remaining_shares g
              (if Date.le start t.date then
                n ++ [NarrEvent.sellHeader t.remaining_shares stock t.date t.total_value]
               else n)).1
            (matchLoop start t (strategyCands rule mini t front) t.remaining_shares g
              (if Date.le start t.date then
                n ++ [NarrEvent.sellHeader t.remaining_shares stock t.date t.total_value]
               else n)).2.2.1
            (matchLoop start t (strategyCands rule mini t front) t.remaining_shares g
              (if Date.le start t.date then
                n ++ [NarrEvent.sellHeader t.remaining_shares stock t.date t.total_value]
               else n)).2.2.2
            hml.1 hr2 hp2
          refine ⟨h.1, ?_⟩
          intro hnone
          rw [h.2 hnone]
          have hq1 : buyQtySum (t :: rest) =
              (if t.type = "buy" then t.quantity else 0) + buyQtySum rest := by
            simp [buyQtySum]
          have hs1 : sellQtySum (t :: rest) =
              (if t.type = "sell" then t.quantity else 0) + sellQtySum rest := by
            simp [sellQtySum]
          have hnotbuy : ¬ t.type = "buy" := by
            rw [hsell2]; intro hc; exact absurd hc (by simp)
          rw [hq1, hs1, if_pos hsell2, if_neg hnotbuy]
          omega


/-- C6: share conservation and non-negativity.  For a per-security
ledger whose transactions start pristine (`remaining_shares =
quantity`, quantities non-negative), a successful matching pass
satisfies `sum(quantity of buys) = sum(quantity of sells) +
sum(final remaining_shares of surviving buys)`; the final ledger has
no negative `remaining_shares`; and at every intermediate state of the
match loop (arbitrary candidates `cs`, need `rem`) non-negativity is
preserved and the running conservation equation
`buyRemSum out + rem_in = buyRemSum in + rem_out` holds. -/
theorem c6_share_conservation (start : Date) (rule mini : Bool) (stock : String)
    (ts cs : List Tx) (s : Tx) (rem : Int) (g : GainsSplit)
    (n n2 : List NarrEvent)
    (hpristine : ∀ t ∈ ts, t.remaining_shares = t.quantity)
    (hpos : ∀ t ∈ ts, 0 ≤ t.quantity)
    (hcs : ∀ t ∈ cs, 0 ≤ t.remaining_shares) (hrem : 0 ≤ rem) :
    ((processStock start rule mini stock [] ts ⟨0, 0⟩ n).2.2.2 = none →
      buyQtySum ts = sellQtySum ts +
        buyRemSum (processStock start rule mini stock [] ts ⟨0, 0⟩ n).1) ∧
    (∀ t ∈ (processStock start rule mini stock [] ts ⟨0, 0⟩ n).1,
        0 ≤ t.remaining_shares) ∧
    (∀ t ∈ (matchLoop start s cs rem g n2).1, 0 ≤ t.remaining_shares) ∧
    0 ≤ (matchLoop start s cs rem g n2).2.1 ∧
    buyRemSum (matchLoop start s cs rem g n2).1 + rem =
      buyRemSum cs + (matchLoop start s cs rem g n2).2.1 := by
  have hr : ∀ t ∈ ts, 0 ≤ t.remaining_shares := by
    intro t ht
    rw [hpristine t ht]
    exact hpos t ht
  have hinv := processStock_inv start rule mini stock ts [] ⟨0, 0⟩ n
    (fun t ht => absurd ht (List.not_mem_nil t)) hr hpristine
  have hml := matchLoop_nonneg start s cs rem g n2 hcs hrem
  have hmc := matchLoop_conserve start s cs rem g n2
  refine ⟨?_, hinv.1, hml.1, hml.2, hmc⟩
  intro hnone
  have heq := hinv.2 hnone
  have hempty : buyRemSum ([] : List Tx) = 0 := rfl
  omega

/-- Witness for C6 on the three-transaction ledger of the concrete
scenario plus a one-candidate match-loop state. -/
theorem c6_share_conservation_witness :
    ((processStock ⟨2024, 7, 1⟩ true false "X" []
        [⟨⟨2023, 1, 15⟩, "buy", 100, 1000, 100⟩,
         ⟨⟨2024, 1, 15⟩, "buy", 100, 1200, 100⟩,
         ⟨⟨2024, 8, 20⟩, "sell", 150, 3000, 150⟩] ⟨0, 0⟩ []).2.2.2 = none →
      buyQtySum [⟨⟨2023, 1, 15⟩, "buy", 100, 1000, 100⟩,
         ⟨⟨2024, 1, 15⟩, "buy", 100, 1200, 100⟩,
         ⟨⟨2024, 8, 20⟩, "sell", 150, 3000, 150⟩] =
        sellQtySum [⟨⟨2023, 1, 15⟩, "buy", 100, 1000, 100⟩,
         ⟨⟨2024, 1, 15⟩, "buy", 100, 1200, 100⟩,
         ⟨⟨2024, 8, 20⟩, "sell", 150, 3000, 150⟩] +
          buyRemSum (processStock ⟨2024, 7, 1⟩ true false "X" []
            [⟨⟨2023, 1, 15⟩, "buy", 100, 1000, 100⟩,
             ⟨⟨2024, 1, 15⟩, "buy", 100, 1200, 100⟩,
             ⟨⟨2024, 8, 20⟩, "sell", 150, 3000, 150⟩] ⟨0, 0⟩ []).1) ∧
    (∀ t ∈ (processStock ⟨2024, 7, 1⟩ true false "X" []
        [⟨⟨2023, 1, 15⟩, "buy", 100, 1000, 100⟩,
         ⟨⟨2024, 1, 15⟩, "buy", 100, 1200, 100⟩,
         ⟨⟨2024, 8, 20⟩, "sell", 150, 3000, 150⟩] ⟨0, 0⟩ []).1,
        0 ≤ t.remaining_shares) ∧
    (∀ t ∈ (matchLoop ⟨2024, 7, 1⟩ ⟨⟨2024, 8, 20⟩, "sell", 150, 3000, 150⟩
        [⟨⟨2024, 1, 15⟩, "buy", 100, 1200, 100⟩] 50 ⟨0, 0⟩ []).1,
        0 ≤ t.remaining_shares) ∧
    0 ≤ (matchLoop ⟨2024, 7, 1⟩ ⟨⟨2024, 8, 20⟩, "sell", 150, 3000, 150⟩
        [⟨⟨2024, 1, 15⟩, "buy", 100, 1200, 100⟩] 50 ⟨0, 0⟩ []).2.1 ∧
    buyRemSum (matchLoop ⟨2024, 7, 1⟩ ⟨⟨2024, 8, 20⟩, "sell", 150, 3000, 150⟩
        [⟨⟨2024, 1, 15⟩, "buy", 100, 1200, 100⟩] 50 ⟨0, 0⟩ []).1 + 50 =
      buyRemSum [⟨⟨2024, 1, 15⟩, "buy", 100, 1200, 100⟩] +
        (matchLoop ⟨2024, 7, 1⟩ ⟨⟨2024, 8, 20⟩, "sell", 150, 3000, 150⟩
          [⟨⟨2024, 1, 15⟩, "buy", 100, 1200, 100⟩] 50 ⟨0, 0⟩ []).2.1 :=
  c6_share_conservation ⟨2024, 7, 1⟩ true false "X"
    [⟨⟨2023, 1, 15⟩, "buy", 100, 1000, 100⟩,
     ⟨⟨2024, 1, 15⟩, "buy", 100, 1200, 100⟩,
     ⟨⟨2024, 8, 20⟩, "sell", 150, 3000, 150⟩]
    [⟨⟨2024, 1, 15⟩, "buy", 100, 1200, 100⟩]
    ⟨⟨2024, 8, 20⟩, "sell", 150, 3000, 150⟩ 50 ⟨0, 0⟩ [] []
    (by decide) (by decide) (by decide) (by decide)



/-- A calendar date whose components are in range (what `strptime`
guarantees for every parsed ledger date). -/
def validDate (d : Date) : Prop :=
  1 ≤ d.month ∧ d.month ≤ 12 ∧ 1 ≤ d.day ∧ d.day ≤ daysInMonth d.year d.month

instance (d : Date) : Decidable (validDate d) := by
  unfold validDate; infer_instance

theorem lastSell_cons (t : Tx) (ts : List Tx) :
    lastSell (t :: ts) = (match lastSell ts with
      | some u => some u
      | none => if t.type = "sell" then some t else none) := rfl

theorem lastSell_isSell : ∀ (ts : List Tx) (u : Tx), lastSell ts = some u →
    u ∈ ts ∧ u.type = "sell" := by
  intro ts
  induction ts with
  | nil => intro u h; cases h
  | cons t ts ih =>
    intro u h
    rw [lastSell_cons] at h
    cases hls : lastSell ts with
    | some v =>
      rw [hls] at h
      have h2 : some v = some u := h
      cases h2
      have := ih u hls
      exact ⟨List.mem_cons_of_mem t this.1, this.2⟩
    | none =>
      rw [hls] at h
      have h2 : (if t.type = "sell" then some t else none) = some u := h
      by_cases hts : t.type = "sell"
      · rw [if_pos hts] at h2
        cases h2
        exact ⟨List.mem_cons_self t ts, hts⟩
      · rw [if_neg hts] at h2
        cases h2

theorem lastSell_none : ∀ (ts : List Tx), lastSell ts = none →
    ∀ t ∈ ts, ¬ t.type = "sell" := by
  intro ts
  induction ts with
  | nil => intro _ t ht; cases ht
  | cons t ts ih =>
    intro h x hx
    rw [lastSell_cons] at h
    cases hls : lastSell ts with
    | some v =>
      rw [hls] at h
      have h2 : (some v : Option Tx) = none := h
      cases h2
    | none =>
      rw [hls] at h
      have h2 : (if t.type = "sell" then some t else none) = (none : Option Tx) := h
      by_cases hts : t.type = "sell"
      · rw [if_pos hts] at h2; cases h2
      · rcases List.mem_cons.mp hx with h1 | h3
        · rw [h1]; exact hts
        · exact ih hls x h3

/-- In a date-sorted transaction list the backward scan's sell is the
most recent one: every sell's date is bounded by its date. -/
theorem lastSell_max : ∀ (ts : List Tx),
    List.Pairwise (fun a b => Date.le a.date b.date) ts →
    ∀ (u : Tx), lastSell ts = some u →
    ∀ t ∈ ts, t.type = "sell" → Date.le t.date u.date := by
  intro ts
  induction ts with
  | nil => intro _ u h; cases h
  | cons t ts ih =>
    intro hpw u h x hx hxs
    have hpw2 := List.pairwise_cons.mp hpw
    rw [lastSell_cons] at h
    cases hls : lastSell ts with
    | some v =>
      rw [hls] at h
      have h2 : some v = some u := h
      cases h2
      rcases List.mem_cons.mp hx with h1 | h3
      · rw [h1]
        exact hpw2.1 u (lastSell_isSell ts u hls).1
      · exact ih hpw2.2 u hls x h3 hxs
    | none =>
      rw [hls] at h
      have h2 : (if t.type = "sell" then some t else none) = some u := h
      by_cases hts : t.type = "sell"
      · rw [if_pos hts] at h2
        cases h2
        rcases List.mem_cons.mp hx with h1 | h3
        · rw [h1]
          exact Date.le_refl t.date
        · exact absurd hxs (lastSell_none ts hls x h3)
      · rw [if_neg hts] at h2
        cases h2

theorem latestSellFold_sources (acc : Option Date) (q : String × List Tx)
    (a2 : Date) (h : latestSellFold acc q = some a2) :
    acc = some a2 ∨ ∃ u : Tx, lastSell q.2 = some u ∧ u.date = a2 := by
  unfold latestSellFold at h
  cases hls : lastSell q.2 with
  | none =>
    rw [hls] at h
    exact Or.inl h
  | some u =>
    rw [hls] at h
    cases hacc : acc with
    | none =>
      rw [hacc] at h
      have h2 : some u.date = some a2 := h
      cases h2
      exact Or.inr ⟨u, rfl, rfl⟩
    | some a =>
      rw [hacc] at h
      have h2 : (if Date.lt a u.date then some u.date else some a) = some a2 := h
      by_cases hlt : Date.lt a u.date
      · rw [if_pos hlt] at h2
        cases h2
        exact Or.inr ⟨u, rfl, rfl⟩
      · rw [if_neg hlt] at h2
        exact Or.inl h2

theorem latestSellFold_le_acc (acc : Option Date) (q : String × List Tx)
    (a : Date) (ha : acc = some a) :
    ∃ a2, latestSellFold acc q = some a2 ∧ Date.le a a2 := by
  subst ha
  cases hls : lastSell q.2 with
  | none =>
    refine ⟨a, ?_, Date.le_refl a⟩
    unfold latestSellFold
    rw [hls]
  | some u =>
    have hform : latestSellFold (some a) q =
        (if Date.lt a u.date then some u.date else some a) := by
      unfold latestSellFold
      rw [hls]
    by_cases hlt : Date.lt a u.date
    · refine ⟨u.date, ?_, (Date.lt_iff_le_not_le.mp hlt).1⟩
      rw [hform, if_pos hlt]
    · refine ⟨a, ?_, Date.le_refl a⟩
      rw [hform, if_neg hlt]

theorem latestSellFold_le_own (acc : Option Date) (q : String × List Tx)
    (u : Tx) (hls : lastSell q.2 = some u) :
    ∃ a2, latestSellFold acc q = some a2 ∧ Date.le u.date a2 := by
  cases hacc : acc with
  | none =>
    refine ⟨u.date, ?_, Date.le_refl u.date⟩
    unfold latestSellFold
    rw [hls]
  | some a =>
    have hform : latestSellFold (some a) q =
        (if Date.lt a u.date then some u.date else some a) := by
      unfold latestSellFold
      rw [hls]
    by_cases hlt : Date.lt a u.date
    · refine ⟨u.date, ?_, Date.le_refl u.date⟩
      rw [hform, if_pos hlt]
    · refine ⟨a, ?_, Date.not_lt_iff_le.mp hlt⟩
      rw [hform, if_neg hlt]

/-- What the resolver's fold computes: the result bounds the running
accumulator and every security's most recent sell date from above, and
it is either the accumulator or one of those sell dates. -/
theorem latestSellFold_spec : ∀ (data : List (String × List Tx)) (acc : Option Date),
    (∀ a : Date, acc = some a →
      ∃ l, data.foldl latestSellFold acc = some l ∧ Date.le a l) ∧
    (∀ p ∈ data, ∀ u : Tx, lastSell p.2 = some u →
      ∃ l, data.foldl latestSellFold acc = some l ∧ Date.le u.date l) ∧
    (∀ l : Date, data.foldl latestSellFold acc = some l →
      acc = some l ∨ ∃ p, p ∈ data ∧ ∃ u : Tx, lastSell p.2 = some u ∧ u.date = l) := by
  intro data
  induction data with
  | nil =>
    intro acc
    refine ⟨?_, ?_, ?_⟩
    · intro a ha
      exact ⟨a, ha, Date.le_refl a⟩
    · intro p hp
      cases hp
    · intro l hl
      exact Or.inl hl
  | cons q data ih =>
    intro acc
    have hfoldcons : (q :: data).foldl latestSellFold acc =
        data.foldl latestSellFold (latestSellFold acc q) := rfl
    refine ⟨?_, ?_, ?_⟩
    · intro a ha
      rcases latestSellFold_le_acc acc q a ha with ⟨a2, ha2, hle⟩
      rcases (ih (latestSellFold acc q)).1 a2 ha2 with ⟨l, hl, hle2⟩
      exact ⟨l, by rw [hfoldcons]; exact hl, Date.le_trans hle hle2⟩
    · intro p hp u hu
      rcases List.mem_cons.mp hp with h1 | h2
      · rcases latestSellFold_le_own acc q u (by rw [h1] at hu; exact hu) with
          ⟨a2, ha2, hle⟩
        rcases (ih (latestSellFold acc q)).1 a2 ha2 with ⟨l, hl, hle2⟩
        exact ⟨l, by rw [hfoldcons]; exact hl, Date.le_trans hle hle2⟩
      · rcases (ih (latestSellFold acc q)).2.1 p h2 u hu with ⟨l, hl, hle⟩
        exact ⟨l, by rw [hfoldcons]; exact hl, hle⟩
    · intro l hl
      rw [hfoldcons] at hl
      rcases (ih (latestSellFold acc q)).2.2 l hl with h1 | h2
      · rcases latestSellFold_sources acc q l h1 with h3 | ⟨u, hu, hud⟩
        · exact Or.inl h3
        · exact Or.inr ⟨q, List.mem_cons_self q data, u, hu, hud⟩
      · rcases h2 with ⟨p, hp, u, hu, hud⟩
        exact Or.inr ⟨p, List.mem_cons_of_mem q hp, u, hu, hud⟩

theorem calculate_latest_tax_year_eq (data : List (String × List Tx)) :
    calculate_latest_tax_year data = (match data.foldl latestSellFold none with
      | none => none
      | some l =>
        if 7 ≤ l.month then some ((⟨l.year, 7, 1⟩ : Date), (⟨l.year + 1, 6, 30⟩ : Date))
        else some (⟨l.year - 1, 7, 1⟩, ⟨l.year, 6, 30⟩)) := rfl

/-- C10: when the tax year window is resolved from a date-sorted,
valid-dated ledger, every sell transaction's date is at most
`end_date`; consequently the engine's in-window test, which only
compares the sell date against `start_date`, holds exactly when the
sell date lies within `[start_date, end_date]`. -/
theorem c10_window_upper_bound (data : List (String × List Tx))
    (start end_ : Date)
    (hsorted : ∀ p ∈ data, List.Pairwise (fun a b => Date.le a.date b.date) p.2)
    (hvalid : ∀ p ∈ data, ∀ t ∈ p.2, validDate t.date)
    (hres : calculate_latest_tax_year data = some (start, end_)) :
    ∀ p ∈ data, ∀ t ∈ p.2, t.type = "sell" →
      Date.le t.date end_ ∧
      (Date.le start t.date ↔ (Date.le start t.date ∧ Date.le t.date end_)) := by
  intro p hp t ht hts
  rw [calculate_latest_tax_year_eq] at hres
  cases hfold : data.foldl latestSellFold none with
  | none =>
    rw [hfold] at hres
    cases hres
  | some l =>
    rw [hfold] at hres
    have hres2 : (if 7 ≤ l.month then
        some ((⟨l.year, 7, 1⟩ : Date), (⟨l.year + 1, 6, 30⟩ : Date))
        else some (⟨l.year - 1, 7, 1⟩, ⟨l.year, 6, 30⟩)) = some (start, end_) := hres
    have hlvalid : validDate l := by
      rcases (latestSellFold_spec data none).2.2 l hfold with h1 | h2
      · cases h1
      · rcases h2 with ⟨q, hq, u, hu, hud⟩
        rw [← hud]
        exact hvalid q hq u (lastSell_isSell q.2 u hu).1
    have hsell : ∃ u : Tx, lastSell p.2 = some u := by
      cases hls : lastSell p.2 with
      | none => exact absurd hts (lastSell_none p.2 hls t ht)
      | some u => exact ⟨u, rfl⟩
    rcases hsell with ⟨u, hu⟩
    have htu : Date.le t.date u.date :=
      lastSell_max p.2 (hsorted p hp) u hu t ht hts
    have hul : Date.le u.date l := by
      rcases (latestSellFold_spec data none).2.1 p hp u hu with ⟨l2, hl2, hle⟩
      rw [hfold] at hl2
      cases hl2
      exact hle
    have hlend : Date.le l end_ := by
      by_cases hm : 7 ≤ l.month
      · rw [if_pos hm] at hres2
        have hpair := Option.some.inj hres2
        have hend : (⟨l.year + 1, 6, 30⟩ : Date) = end_ := congrArg Prod.snd hpair
        rw [← hend]
        show l.year < l.year + 1 ∨ (l.year = l.year + 1 ∧
          (l.month < 6 ∨ (l.month = 6 ∧ l.day ≤ 30)))
        omega
      · rw [if_neg hm] at hres2
        have hpair := Option.some.inj hres2
        have hend : (⟨l.year, 6, 30⟩ : Date) = end_ := congrArg Prod.snd hpair
        rw [← hend]
        have hlv2 : 1 ≤ l.month ∧ l.month ≤ 12 ∧ 1 ≤ l.day ∧
            l.day ≤ daysInMonth l.year l.month := hlvalid
        by_cases hm6 : l.month = 6
        · have hd6 : daysInMonth l.year 6 = 30 := by norm_num [daysInMonth]
          rw [hm6] at hlv2
          rw [hd6] at hlv2
          show l.year < l.year ∨ (l.year = l.year ∧
            (l.month < 6 ∨ (l.month = 6 ∧ l.day ≤ 30)))
          omega
        · show l.year < l.year ∨ (l.year = l.year ∧
            (l.month < 6 ∨ (l.month = 6 ∧ l.day ≤ 30)))
          omega
    have hte : Date.le t.date end_ := Date.le_trans htu (Date.le_trans hul hlend)
    exact ⟨hte, ⟨fun h => ⟨h, hte⟩, fun h => h.1⟩⟩

/-- Witness for C10: in a two-security sorted ledger resolved to the
2024-25 window, the 02/07/2024 sell of security `B` is bounded by the
window end and its in-window test is equivalent to window
membership. -/
theorem c10_window_upper_bound_witness :
    Date.le (⟨⟨2024, 7, 2⟩, "sell", 4, 50, 4⟩ : Tx).date ⟨2025, 6, 30⟩ ∧
    (Date.le ⟨2024, 7, 1⟩ (⟨⟨2024, 7, 2⟩, "sell", 4, 50, 4⟩ : Tx).date ↔
      (Date.le ⟨2024, 7, 1⟩ (⟨⟨2024, 7, 2⟩, "sell", 4, 50, 4⟩ : Tx).date ∧
        Date.le (⟨⟨2024, 7, 2⟩, "sell", 4, 50, 4⟩ : Tx).date ⟨2025, 6, 30⟩)) :=
  c10_window_upper_bound
    [("A", [⟨⟨2024, 1, 10⟩, "buy", 10, 100, 10⟩, ⟨⟨2024, 8, 20⟩, "sell", 5, 60, 5⟩]),
     ("B", [⟨⟨2023, 5, 1⟩, "buy", 4, 40, 4⟩, ⟨⟨2024, 7, 2⟩, "sell", 4, 50, 4⟩])]
    ⟨2024, 7, 1⟩ ⟨2025, 6, 30⟩ (by decide) (by decide) (by decide)
    ("B", [⟨⟨2023, 5, 1⟩, "buy", 4, 40, 4⟩, ⟨⟨2024, 7, 2⟩, "sell", 4, 50, 4⟩])
    (by decide) ⟨⟨2024, 7, 2⟩, "sell", 4, 50, 4⟩ (by decide) rfl

end CGT
